import Mathlib

/-!
# Verification of the agglomerative clustering engine (`src/Clustering.py`)

This file gives a shallow embedding of the hierarchical agglomerative
clustering engine of `Clustering.py` and proves properties of it.

Modelling conventions:

* Machine floats (`np.float32`) are modelled exactly: the engine only ever
  compares proximities with `<`, `=` and against `0`, so the embedding is
  parametric in a point type `α` and a distance function `dist : α → α → β`
  into a linearly ordered type `β` with a zero, in place of
  `euclidean_distance` (which returns a real square root).  For concrete
  evaluations we use one-dimensional integer points, on which the Euclidean
  distance `sqrt ((p - q)^2)` is exactly the absolute difference.
* `np.nan` is modelled by `Option β` with `none` playing the role of NaN,
  and `np.nanargmin` raising `ValueError` on an all-NaN array is modelled
  by returning `none`.
* The mutable fields of a `MyAgglomerativeClustering` instance that change
  during `fit` (`_n_items`, `_items`, `_clusters`, `_proximity_matrix`)
  form the state record `EngState`; the fields fixed at construction time
  (`_n_clusters`, `_linkage_func`) form the record
  `MyAgglomerativeClustering`.
* The proximity matrix (`np.zeros((2n, 2n))`) is modelled as a total
  function `ℕ → ℕ → β` initialized to `0`; the engine only reads and
  writes entries inside the allocated square.
* Python raising an exception is modelled by `Option`/`Except` results.
* The `while` loop of `fit` is modelled by a fuel-indexed loop; `fit`
  supplies fuel `bound + 1` where `bound` is the loop bound
  `2 * n_items - n_clusters`.  Since every iteration grows `_clusters` by
  exactly one element and the loop exits as soon as
  `len(_clusters) ≥ bound`, this fuel is never exhausted before the loop
  exits by its own condition, so `none` results only from the modelled
  `ValueError` of `np.nanargmin`.
-/

/-- The cluster object of `Clustering.py` (`class MyCluster`): a list of
member item ids and a used flag (`_used = True` means the cluster is
active, `False` means it was merged away). -/
structure MyCluster where
  items : List ℕ
  used : Bool
deriving DecidableEq

/-- A fresh cluster `MyCluster()` has no items and is in use; this is also
the out-of-range default for list reads (Python would raise `IndexError`
instead; all verified runs stay in range). -/
instance : Inhabited MyCluster := ⟨⟨[], true⟩⟩

/-- The method `MyCluster.release`: set `_used = False` and clear `_items`. -/
def MyCluster.release (_c : MyCluster) : MyCluster :=
  { items := [], used := false }

variable {α β : Type}

/-- The value `np.min` of a nonempty array, folded over a list; `np.min`
raises on an empty array, which the engine never produces (active clusters
are nonempty), so the `[]` case returns a junk value `0`. -/
def listMin [LinearOrder β] [Zero β] : List β → β
  | [] => 0
  | x :: xs => xs.foldl min x

/-- The value `np.max` of a nonempty array, folded over a list; the `[]`
case is junk as in `listMin`. -/
def listMax [LinearOrder β] [Zero β] : List β → β
  | [] => 0
  | x :: xs => xs.foldl max x

/-- The function `single_linkage(points, clusters, p, q)`: the minimum of
`dist` over all pairs of members of `clusters[p]` and `clusters[q]`
(the flattening of the `cdist` matrix). -/
def single_linkage [Inhabited α] [LinearOrder β] [Zero β] (dist : α → α → β)
    (points : List α) (clusters : List MyCluster) (p q : ℕ) : β :=
  let XA := (clusters.getD p default).items.map fun x => points.getD x default
  let XB := (clusters.getD q default).items.map fun y => points.getD y default
  listMin (XA.flatMap fun a => XB.map fun b => dist a b)

/-- The function `complete_linkage(points, clusters, p, q)`: the maximum of
`dist` over all pairs of members of `clusters[p]` and `clusters[q]`. -/
def complete_linkage [Inhabited α] [LinearOrder β] [Zero β] (dist : α → α → β)
    (points : List α) (clusters : List MyCluster) (p q : ℕ) : β :=
  let XA := (clusters.getD p default).items.map fun x => points.getD x default
  let XB := (clusters.getD q default).items.map fun y => points.getD y default
  listMax (XA.flatMap fun a => XB.map fun b => dist a b)

/-- The type of `_linkage_func` members: `(points, clusters, p, q) ↦ proximity`. -/
abbrev LinkFun (α β : Type) := List α → List MyCluster → ℕ → ℕ → β

/-- The proximity matrix `_proximity_matrix`, as a total function on ids. -/
abbrev ProxMatrix (β : Type) := ℕ → ℕ → β

/-- A single assignment `matrix[i, j] = v`. -/
def writeProx (m : ProxMatrix β) (i j : ℕ) (v : β) : ProxMatrix β :=
  fun a b => if a = i ∧ b = j then v else m a b

/-- The fields of a `MyAgglomerativeClustering` instance that mutate during
`fit`: `_n_items`, `_items`, `_clusters` and `_proximity_matrix`. -/
structure EngState (α β : Type) where
  n_items : ℕ
  items : List α
  clusters : List MyCluster
  proximity_matrix : ProxMatrix β

/-- The construction-time configuration of `MyAgglomerativeClustering`:
`_n_clusters` and the resolved `_linkage_func`. -/
structure MyAgglomerativeClustering (α β : Type) where
  n_clusters : ℕ
  linkage_func : LinkFun α β

/-- The error raised by the `linkage_choices[self._linkage]` dictionary
lookup in `__init__` when the linkage name is unknown. -/
inductive KeyError
  | keyError
deriving DecidableEq

/-- The constructor `MyAgglomerativeClustering.__init__(n_clusters, linkage)`:
resolve `_linkage_func` through the `linkage_choices` dictionary, raising
`KeyError` on an unknown linkage name so that the caller receives no
engine instance. -/
def mkMyAgglomerativeClustering [Inhabited α] [LinearOrder β] [Zero β]
    (dist : α → α → β) (n_clusters : ℕ) (linkage : String) :
    Except KeyError (MyAgglomerativeClustering α β) :=
  if linkage = "single" then
    Except.ok { n_clusters := n_clusters, linkage_func := single_linkage dist }
  else if linkage = "complete" then
    Except.ok { n_clusters := n_clusters, linkage_func := complete_linkage dist }
  else
    Except.error KeyError.keyError

/-- The method `_remaining_clusters`: the ids `i` with `clusters[i].used`,
in ascending order (the source iterates `enumerate(self._clusters)` and
appends the indices of the used clusters). -/
def remaining_clusters (cs : List MyCluster) : List ℕ :=
  (List.range cs.length).filter fun i => (cs.getD i default).used

/-- The row-major enumeration of the index pairs of a `k × k` matrix, the
order in which `np.unravel_index ∘ np.nanargmin` searches a flattened
array. -/
def pairsRowMajor (k : ℕ) : List (ℕ × ℕ) :=
  (List.range k).flatMap fun i => (List.range k).map fun j => (i, j)

/-- The composition `np.unravel_index (np.nanargmin sub, sub.shape)` for a
`k × k` matrix with NaN modelled as `none`: the position of the least
non-NaN entry, the first such position in row-major order on ties, and
`none` (the `ValueError` of `np.nanargmin`) when every entry is NaN. -/
def nanargmin [LinearOrder β] [Zero β] (sub : ℕ → ℕ → Option β) (k : ℕ) :
    Option (ℕ × ℕ) :=
  match (pairsRowMajor k).filter (fun ij => (sub ij.1 ij.2).isSome) with
  | [] => none
  | x :: xs =>
      some (xs.foldl (fun b a =>
        if (sub a.1 a.2).getD 0 < (sub b.1 b.2).getD 0 then a else b) x)

/-- The method `find_clusters_to_merge`.  The fancy-indexed sub-matrix
`self._proximity_matrix[np.ix_(remaining, remaining)]` is a fresh copy in
numpy (advanced indexing never returns a view), so the in-place masking
`sub_p_matrix[sub_p_matrix == 0] = np.nan` mutates only that copy; the
instance state is returned unchanged.  The returned ids are the selected
sub-matrix coordinates mapped back through `remaining`. -/
def find_clusters_to_merge [LinearOrder β] [Zero β] (s : EngState α β) :
    Option (ℕ × ℕ) × EngState α β :=
  let remaining := remaining_clusters s.clusters
  let sub_p_matrix : ℕ → ℕ → β := fun i j =>
    s.proximity_matrix (remaining.getD i 0) (remaining.getD j 0)
  let masked : ℕ → ℕ → Option β := fun i j =>
    if sub_p_matrix i j = 0 then none else some (sub_p_matrix i j)
  match nanargmin masked remaining.length with
  | none => (none, s)
  | some (idx_p, idx_q) =>
      (some (remaining.getD idx_p 0, remaining.getD idx_q 0), s)

/-- The method `merge_cluster(p, q)`: build a new cluster whose items are
`clusters[p].items ++ clusters[q].items`, append it to the registry,
release `p` and `q`, and return `len(self._clusters) - 1` (the registry
size before the merge). -/
def merge_cluster (s : EngState α β) (p q : ℕ) : ℕ × EngState α β :=
  let new_cluster : MyCluster :=
    { items := (s.clusters.getD p default).items ++ (s.clusters.getD q default).items
      used := true }
  let cs₀ := s.clusters ++ [new_cluster]
  let cs₁ := cs₀.set p (cs₀.getD p default).release
  let cs₂ := cs₁.set q (cs₁.getD q default).release
  (cs₂.length - 1, { s with clusters := cs₂ })

/-- The method `update_proximity(new_cluster)`: take the remaining cluster
ids, `pop()` the last one (which is the new cluster, the active cluster of
largest id), and for each other remaining id `i` assign
`matrix[i, new_cluster] = linkage_func(items, clusters, i, new_cluster)`. -/
def update_proximity (lf : LinkFun α β) (s : EngState α β)
    (new_cluster : ℕ) : EngState α β :=
  let remaining := (remaining_clusters s.clusters).dropLast
  let m₁ := remaining.foldl
    (fun m i => writeProx m i new_cluster (lf s.items s.clusters i new_cluster))
    s.proximity_matrix
  { s with proximity_matrix := m₁ }

/-- The method `init_cluster(inputs)` of the engine: one singleton active
cluster per input point (cluster `i` holds item `i`), returning the inputs
and the cluster list. -/
def init_cluster (X : List α) : List α × List MyCluster :=
  (X, (List.range X.length).map fun i => { items := [i], used := true })

/-- The upper-triangle index pairs `(i, j)` with `i < j < n`, in the order
of the initialization double loop of `fit`
(`for i in range(len - 1): for j in range(i + 1, len)`). -/
def upperPairs (n : ℕ) : List (ℕ × ℕ) :=
  (List.range (n - 1)).flatMap fun i =>
    (List.range' (i + 1) (n - (i + 1))).map fun j => (i, j)

/-- The proximity-matrix bootstrap loop at the top of `fit`: for every
upper-triangle pair `(i, j)` of initial clusters, assign
`matrix[i, j] = euclidean_distance(items[clusters[i]._items[0]],
items[clusters[j]._items[0]])`. -/
def init_proximity [Inhabited α] (dist : α → α → β) (items : List α)
    (clusters : List MyCluster) (m₀ : ProxMatrix β) : ProxMatrix β :=
  (upperPairs clusters.length).foldl
    (fun m ij => writeProx m ij.1 ij.2
      (dist (items.getD ((clusters.getD ij.1 default).items.getD 0 0) default)
            (items.getD ((clusters.getD ij.2 default).items.getD 0 0) default)))
    m₀

/-- The engine state at the top of the merge loop of `fit`: items and
singleton clusters from `init_cluster`, `_n_items = len(X)`, and the
zero matrix `np.zeros((2n, 2n))` overwritten on the upper triangle by the
bootstrap distances. -/
def initState [Inhabited α] [Zero β] (dist : α → α → β) (X : List α) :
    EngState α β :=
  let ic := init_cluster X
  { n_items := X.length
    items := ic.1
    clusters := ic.2
    proximity_matrix := init_proximity dist ic.1 ic.2 (fun _ _ => 0) }

/-- The merge loop of `fit`: while `len(clusters) < bound` run one
iteration (select, merge, update, record); `none` models the uncaught
`ValueError` of `np.nanargmin` when no eligible entry exists.  The fuel
argument only bounds the recursion; `fit` passes `bound + 1`, which the
loop can never exhaust (each iteration grows `clusters` by one). -/
def fitLoop [LinearOrder β] [Zero β] (lf : LinkFun α β) (bound : ℕ) :
    ℕ → EngState α β → List (ℕ × ℕ) → Option (List (ℕ × ℕ) × EngState α β)
  | fuel, s, history =>
      if s.clusters.length < bound then
        match fuel with
        | 0 => none
        | fuel + 1 =>
            match find_clusters_to_merge s with
            | (none, _) => none
            | (some (p, q), s₁) =>
                let ms := merge_cluster s₁ p q
                let s₂ := update_proximity lf ms.2 ms.1
                fitLoop lf bound fuel s₂ (history ++ [(p, q)])
      else
        some (history, s)

/-- The method `fit(X)`, returning the final state together with the
history (the state is kept so that post-state invariants can be stated). -/
def fit_full [Inhabited α] [LinearOrder β] [Zero β] (dist : α → α → β)
    (e : MyAgglomerativeClustering α β) (X : List α) :
    Option (List (ℕ × ℕ) × EngState α β) :=
  let s := initState dist X
  fitLoop e.linkage_func (2 * s.n_items - e.n_clusters)
    (2 * s.n_items - e.n_clusters + 1) s []

/-- The method `fit(X)` as observed by the caller: the merge history, or
`none` for an uncaught exception. -/
def fit [Inhabited α] [LinearOrder β] [Zero β] (dist : α → α → β)
    (e : MyAgglomerativeClustering α β) (X : List α) : Option (List (ℕ × ℕ)) :=
  (fit_full dist e X).map Prod.fst

/-- The exact Euclidean distance between one-dimensional integer points:
`sqrt ((p - q)^2)` is the absolute difference.  Used to run the engine on
concrete inputs. -/
def absDist (p q : ℤ) : ℤ := if p ≤ q then q - p else p - q

/-- Strict ascending order on id pairs: the order in which a row-major
scan of the upper-left sub-matrix visits pairs of active ids. -/
def pairLT (a b : ℕ × ℕ) : Prop :=
  a.1 < b.1 ∨ (a.1 = b.1 ∧ a.2 < b.2)

/-- Reflexive ascending order on id pairs, the tie-break order of the
nearest-pair selection: `(p, q)` wins against any pair that comes no
earlier in ascending (row, column) order. -/
def pairLE (a b : ℕ × ℕ) : Prop :=
  a.1 < b.1 ∨ (a.1 = b.1 ∧ a.2 ≤ b.2)

/-- The loop invariant of `fit` on the mutable state: item bookkeeping is
intact (the remaining clusters form a partition of the input index range,
all are nonempty, the active count and registry size add to `2 N`), and
the diagonal of the proximity matrix was never written. -/
structure FitInv [Zero β] (X : List α) (s : EngState α β) : Prop where
  hn : s.n_items = X.length
  hitems : s.items = X
  hcount : (remaining_clusters s.clusters).length + s.clusters.length = 2 * X.length
  hne : ∀ i ∈ remaining_clusters s.clusters, (s.clusters.getD i default).items ≠ []
  hsub : ∀ i ∈ remaining_clusters s.clusters,
    ∀ x ∈ (s.clusters.getD i default).items, x < X.length
  hdisj : ∀ i ∈ remaining_clusters s.clusters, ∀ j ∈ remaining_clusters s.clusters,
    i ≠ j → ∀ x ∈ (s.clusters.getD i default).items,
      x ∉ (s.clusters.getD j default).items
  hcover : ∀ x, x < X.length →
    ∃ i ∈ remaining_clusters s.clusters, x ∈ (s.clusters.getD i default).items
  hdiag : ∀ a, s.proximity_matrix a a = 0

/-- The proximity entries of all upper-triangle pairs of remaining ids are
positive (in particular nonzero, hence eligible for selection).  This holds
throughout `fit` whenever the input points are pairwise at positive
distance. -/
def PosProx [Zero β] [LT β] (s : EngState α β) : Prop :=
  ∀ a ∈ remaining_clusters s.clusters, ∀ b ∈ remaining_clusters s.clusters,
    a < b → 0 < s.proximity_matrix a b

/-! ## Order on matrix positions -/

theorem pairLE_refl (a : ℕ × ℕ) : pairLE a a := Or.inr ⟨rfl, le_refl _⟩

theorem pairLT_pairLE {a b : ℕ × ℕ} (h : pairLT a b) : pairLE a b := by
  unfold pairLT at h; unfold pairLE; omega

theorem pairLE_trans {a b c : ℕ × ℕ} (h₁ : pairLE a b) (h₂ : pairLE b c) :
    pairLE a c := by
  unfold pairLE at h₁ h₂ ⊢; omega

/-- The left fold that `np.nanargmin` performs over the valued cells of the
flattened sub-matrix: on a list whose positions strictly ascend in
row-major order, it returns a member of minimal value, and on ties the
earliest position. -/
theorem minFold_spec {β : Type} [LinearOrder β] (f : ℕ × ℕ → β) :
    ∀ (xs : List (ℕ × ℕ)) (x : ℕ × ℕ), (x :: xs).Pairwise pairLT →
      (xs.foldl (fun b a => if f a < f b then a else b) x) ∈ x :: xs ∧
      (∀ a ∈ x :: xs, f (xs.foldl (fun b a => if f a < f b then a else b) x) ≤ f a) ∧
      (∀ a ∈ x :: xs, f a ≤ f (xs.foldl (fun b a => if f a < f b then a else b) x) →
        pairLE (xs.foldl (fun b a => if f a < f b then a else b) x) a) := by
  intro xs
  induction xs with
  | nil =>
      intro x _
      refine ⟨List.mem_cons_self x [], ?_, ?_⟩
      · intro a ha; rw [List.mem_singleton] at ha; subst ha; exact le_refl _
      · intro a ha _; rw [List.mem_singleton] at ha; subst ha; exact pairLE_refl _
  | cons y ys ih =>
      intro x hpw
      rw [List.pairwise_cons] at hpw
      obtain ⟨hx, hpw₂⟩ := hpw
      rw [List.pairwise_cons] at hpw₂
      obtain ⟨hy, hys⟩ := hpw₂
      have hxy : pairLT x y := hx y (List.mem_cons_self y ys)
      have hpw' : ((if f y < f x then y else x) :: ys).Pairwise pairLT := by
        rw [List.pairwise_cons]
        refine ⟨?_, hys⟩
        intro z hz
        by_cases hc : f y < f x
        · rw [if_pos hc]; exact hy z hz
        · rw [if_neg hc]; exact hx z (List.mem_cons_of_mem y hz)
      obtain ⟨hmem, hmin, htie⟩ := ih (if f y < f x then y else x) hpw'
      rw [List.foldl_cons]
      set r := ys.foldl (fun b a => if f a < f b then a else b)
        (if f y < f x then y else x) with hr
      refine ⟨?_, ?_, ?_⟩
      · rcases List.mem_cons.mp hmem with hm | hm
        · by_cases hc : f y < f x
          · rw [if_pos hc] at hm
            rw [hm]
            exact List.mem_cons_of_mem x (List.mem_cons_self y ys)
          · rw [if_neg hc] at hm
            rw [hm]
            exact List.mem_cons_self x (y :: ys)
        · exact List.mem_cons_of_mem x (List.mem_cons_of_mem y hm)
      · intro a ha
        rcases List.mem_cons.mp ha with h₁ | ha'
        · subst h₁
          by_cases hc : f y < f a
          · have := hmin _ (List.mem_cons_self _ ys)
            rw [if_pos hc] at this
            exact le_trans this (le_of_lt hc)
          · have := hmin _ (List.mem_cons_self _ ys)
            rw [if_neg hc] at this
            exact this
        rcases List.mem_cons.mp ha' with h₁ | ha''
        · subst h₁
          by_cases hc : f a < f x
          · have := hmin _ (List.mem_cons_self _ ys)
            rw [if_pos hc] at this
            exact this
          · have := hmin _ (List.mem_cons_self _ ys)
            rw [if_neg hc] at this
            exact le_trans this (le_of_not_lt hc)
        · exact hmin a (List.mem_cons_of_mem _ ha'')
      · intro a ha hle
        rcases List.mem_cons.mp ha with h₁ | ha'
        · subst h₁
          by_cases hc : f y < f a
          · exfalso
            have := hmin _ (List.mem_cons_self _ ys)
            rw [if_pos hc] at this
            exact absurd (le_trans hle this) (not_le_of_lt hc)
          · have := htie _ (List.mem_cons_self _ ys)
            rw [if_neg hc] at this
            exact this hle
        rcases List.mem_cons.mp ha' with h₁ | ha''
        · subst h₁
          by_cases hc : f a < f x
          · have := htie _ (List.mem_cons_self _ ys)
            rw [if_pos hc] at this
            exact this hle
          · have hminx := hmin _ (List.mem_cons_self _ ys)
            rw [if_neg hc] at hminx
            have hrx : pairLE r x := by
              have := htie _ (List.mem_cons_self _ ys)
              rw [if_neg hc] at this
              exact this (le_trans (le_of_not_lt hc) hle)
            exact pairLE_trans hrx (pairLT_pairLE hxy)
        · exact htie a (List.mem_cons_of_mem _ ha'') hle

/-! ## The row-major pair enumeration -/

theorem mem_pairsRowMajor {k i j : ℕ} :
    (i, j) ∈ pairsRowMajor k ↔ i < k ∧ j < k := by
  simp [pairsRowMajor, List.mem_flatMap, List.mem_map, List.mem_range]

theorem pairsRowMajor_pairwise (k : ℕ) : (pairsRowMajor k).Pairwise pairLT := by
  unfold pairsRowMajor
  rw [List.pairwise_flatMap]
  constructor
  · intro i _
    rw [List.pairwise_map]
    exact (List.sorted_lt_range k).imp fun h => Or.inr ⟨rfl, h⟩
  · refine (List.sorted_lt_range k).imp ?_
    intro i₁ i₂ h x hx y hy
    rw [List.mem_map] at hx hy
    obtain ⟨a, _, rfl⟩ := hx
    obtain ⟨b, _, rfl⟩ := hy
    exact Or.inl h

/-! ## Remaining clusters -/

theorem mem_remaining_clusters {cs : List MyCluster} {i : ℕ} :
    i ∈ remaining_clusters cs ↔
      i < cs.length ∧ (cs.getD i default).used = true := by
  simp [remaining_clusters, List.mem_filter, List.mem_range]

theorem remaining_clusters_sorted (cs : List MyCluster) :
    (remaining_clusters cs).Sorted (· < ·) :=
  List.Pairwise.sublist (List.filter_sublist _) (List.sorted_lt_range cs.length)

theorem remaining_clusters_nodup (cs : List MyCluster) :
    (remaining_clusters cs).Nodup :=
  (List.nodup_range cs.length).filter _

/-! ## Characterization of the nearest-pair selection -/

theorem getD_eq_get {l : List ℕ} {i : ℕ} (h : i < l.length) :
    l.getD i 0 = l.get ⟨i, h⟩ := by
  rw [List.getD_eq_getElem?_getD, List.getElem?_eq_getElem h]
  rfl

theorem nanargmin_isSome {β : Type} [LinearOrder β] [Zero β]
    (sub : ℕ → ℕ → Option β) (k : ℕ) {i j : ℕ} (hi : i < k) (hj : j < k)
    (hs : (sub i j).isSome = true) : ∃ r, nanargmin sub k = some r := by
  have hmem : (i, j) ∈ (pairsRowMajor k).filter (fun ij => (sub ij.1 ij.2).isSome) :=
    List.mem_filter.mpr ⟨mem_pairsRowMajor.mpr ⟨hi, hj⟩, hs⟩
  unfold nanargmin
  cases hL : (pairsRowMajor k).filter (fun ij => (sub ij.1 ij.2).isSome) with
  | nil => rw [hL] at hmem; exact absurd hmem (List.not_mem_nil _)
  | cons x xs => exact ⟨_, rfl⟩

theorem nanargmin_spec {β : Type} [LinearOrder β] [Zero β]
    {sub : ℕ → ℕ → Option β} {k ip iq : ℕ}
    (h : nanargmin sub k = some (ip, iq)) :
    ip < k ∧ iq < k ∧ (sub ip iq).isSome = true ∧
      ∀ i j, i < k → j < k → ∀ v, sub i j = some v →
        (sub ip iq).getD 0 ≤ v ∧
        (v ≤ (sub ip iq).getD 0 → pairLE (ip, iq) (i, j)) := by
  unfold nanargmin at h
  cases hL : (pairsRowMajor k).filter (fun ij => (sub ij.1 ij.2).isSome) with
  | nil => rw [hL] at h; exact absurd h (by simp)
  | cons x xs =>
      rw [hL] at h
      have hpw : (x :: xs).Pairwise pairLT := by
        rw [← hL]
        exact List.Pairwise.sublist (List.filter_sublist _) (pairsRowMajor_pairwise k)
      obtain ⟨hmem, hmin, htie⟩ :=
        minFold_spec (fun ij => (sub ij.1 ij.2).getD 0) xs x hpw
      have hfold : xs.foldl (fun b a =>
          if (sub a.1 a.2).getD 0 < (sub b.1 b.2).getD 0 then a else b) x = (ip, iq) := by
        exact Option.some.inj h
      rw [hfold] at hmem hmin htie
      have hmem' : (ip, iq) ∈ (pairsRowMajor k).filter
          (fun ij => (sub ij.1 ij.2).isSome) := hL ▸ hmem
      have hmem'' := List.mem_filter.mp hmem'
      have hbounds := mem_pairsRowMajor.mp hmem''.1
      refine ⟨hbounds.1, hbounds.2, hmem''.2, ?_⟩
      intro i j hi hj v hv
      have hijmem : (i, j) ∈ x :: xs := by
        rw [← hL]
        exact List.mem_filter.mpr
          ⟨mem_pairsRowMajor.mpr ⟨hi, hj⟩, by rw [hv]; rfl⟩
      constructor
      · have := hmin (i, j) hijmem
        simpa [hv] using this
      · intro hle
        exact htie (i, j) hijmem (by simpa [hv] using hle)

/-- Soundness of `find_clusters_to_merge`: a returned pair consists of two
remaining cluster ids whose matrix entry is nonzero, minimal among all
nonzero entries between remaining ids, and first in ascending (row,
column) order among minimizers. -/
theorem find_some_spec {α β : Type} [LinearOrder β] [Zero β]
    {s : EngState α β} {p q : ℕ}
    (h : (find_clusters_to_merge s).1 = some (p, q)) :
    p ∈ remaining_clusters s.clusters ∧ q ∈ remaining_clusters s.clusters ∧
    s.proximity_matrix p q ≠ 0 ∧
    ∀ a b, a ∈ remaining_clusters s.clusters → b ∈ remaining_clusters s.clusters →
      s.proximity_matrix a b ≠ 0 →
      s.proximity_matrix p q ≤ s.proximity_matrix a b ∧
      (s.proximity_matrix a b ≤ s.proximity_matrix p q → pairLE (p, q) (a, b)) := by
  simp only [find_clusters_to_merge] at h
  cases hm : nanargmin (fun i j =>
      if s.proximity_matrix ((remaining_clusters s.clusters).getD i 0)
            ((remaining_clusters s.clusters).getD j 0) = 0 then none
       else some (s.proximity_matrix ((remaining_clusters s.clusters).getD i 0)
            ((remaining_clusters s.clusters).getD j 0)))
      (remaining_clusters s.clusters).length with
  | none => rw [hm] at h; exact absurd h (by simp)
  | some r =>
      obtain ⟨ip, iq⟩ := r
      rw [hm] at h
      simp only [Option.some.injEq, Prod.mk.injEq] at h
      obtain ⟨hp, hq⟩ := h
      obtain ⟨hip, hiq, hsome, hminmax⟩ := nanargmin_spec hm
      set rem := remaining_clusters s.clusters with hrem
      have hsrt := remaining_clusters_sorted s.clusters
      have hmono : StrictMono rem.get := hsrt.get_strictMono
      have hpg : rem.getD ip 0 = rem.get ⟨ip, hip⟩ := getD_eq_get hip
      have hqg : rem.getD iq 0 = rem.get ⟨iq, hiq⟩ := getD_eq_get hiq
      have hpmem : p ∈ rem := by rw [← hp, hpg]; exact List.get_mem rem ip hip
      have hqmem : q ∈ rem := by rw [← hq, hqg]; exact List.get_mem rem iq hiq
      have hne : s.proximity_matrix p q ≠ 0 := by
        intro h0
        rw [← hp, ← hq] at h0
        rw [if_pos h0] at hsome
        exact absurd hsome (by simp)
      have hval : (if s.proximity_matrix (rem.getD ip 0) (rem.getD iq 0) = 0
          then none else some (s.proximity_matrix (rem.getD ip 0) (rem.getD iq 0)))
          = some (s.proximity_matrix p q) := by
        rw [hp, hq, if_neg hne]
      refine ⟨hpmem, hqmem, hne, ?_⟩
      intro a b ha hb hab
      obtain ⟨ia, hga⟩ := List.get_of_mem ha
      obtain ⟨ib, hgb⟩ := List.get_of_mem hb
      have hsub : (if s.proximity_matrix (rem.getD ia.1 0) (rem.getD ib.1 0) = 0
          then none else some (s.proximity_matrix (rem.getD ia.1 0) (rem.getD ib.1 0)))
          = some (s.proximity_matrix a b) := by
        rw [getD_eq_get ia.2, getD_eq_get ib.2]
        have hia' : rem.get ⟨ia.1, ia.2⟩ = a := by rw [← hga]
        have hib' : rem.get ⟨ib.1, ib.2⟩ = b := by rw [← hgb]
        rw [hia', hib', if_neg hab]
      have := hminmax ia.1 ib.1 ia.2 ib.2 (s.proximity_matrix a b) hsub
      have hgetD : (if s.proximity_matrix (rem.getD ip 0) (rem.getD iq 0) = 0
          then none
          else some (s.proximity_matrix (rem.getD ip 0) (rem.getD iq 0))).getD 0
          = s.proximity_matrix p q := by
        rw [hval]; rfl
      rw [hgetD] at this
      refine ⟨this.1, ?_⟩
      intro hle
      have hlex := this.2 hle
      unfold pairLE at hlex ⊢
      simp only at hlex ⊢
      rcases hlex with hlt | ⟨heq, hle2⟩
      · left
        have hpp : p = rem.get ⟨ip, hip⟩ := by rw [← hp, hpg]
        have haa : a = rem.get ⟨ia.1, ia.2⟩ := by rw [← hga]
        rw [hpp, haa]
        exact hmono hlt
      · right
        constructor
        · have hpp : p = rem.get ⟨ip, hip⟩ := by rw [← hp, hpg]
          have haa : a = rem.get ⟨ia.1, ia.2⟩ := by rw [← hga]
          rw [hpp, haa]
          congr 1
          exact Fin.ext heq
        · have hqq : q = rem.get ⟨iq, hiq⟩ := by rw [← hq, hqg]
          have hbb : b = rem.get ⟨ib.1, ib.2⟩ := by rw [← hgb]
          rw [hqq, hbb]
          exact hmono.le_iff_le.mpr hle2

/-- Completeness of `find_clusters_to_merge`: if some matrix entry between
remaining ids is nonzero, the selection returns a pair. -/
theorem find_exists {α β : Type} [LinearOrder β] [Zero β]
    {s : EngState α β} {a b : ℕ}
    (ha : a ∈ remaining_clusters s.clusters)
    (hb : b ∈ remaining_clusters s.clusters)
    (hab : s.proximity_matrix a b ≠ 0) :
    ∃ p q, (find_clusters_to_merge s).1 = some (p, q) := by
  set rem := remaining_clusters s.clusters with hrem
  obtain ⟨ia, hga⟩ := List.get_of_mem ha
  obtain ⟨ib, hgb⟩ := List.get_of_mem hb
  have hsome : ((fun i j =>
      if s.proximity_matrix (rem.getD i 0) (rem.getD j 0) = 0 then none
      else some (s.proximity_matrix (rem.getD i 0) (rem.getD j 0))) ia.1 ib.1).isSome
      = true := by
    simp only
    rw [getD_eq_get ia.2, getD_eq_get ib.2]
    have hia' : rem.get ⟨ia.1, ia.2⟩ = a := by rw [← hga]
    have hib' : rem.get ⟨ib.1, ib.2⟩ = b := by rw [← hgb]
    rw [hia', hib', if_neg hab]
    rfl
  obtain ⟨r, hr⟩ := nanargmin_isSome (fun i j =>
      if s.proximity_matrix (rem.getD i 0) (rem.getD j 0) = 0 then none
      else some (s.proximity_matrix (rem.getD i 0) (rem.getD j 0)))
    rem.length ia.2 ib.2 hsome
  simp only [find_clusters_to_merge]
  rw [← hrem, hr]
  obtain ⟨ip, iq⟩ := r
  exact ⟨_, _, rfl⟩

/-- The selection never mutates the engine state: the sub-matrix it masks
is a copy. -/
theorem find_state_eq {α β : Type} [LinearOrder β] [Zero β] (s : EngState α β) :
    (find_clusters_to_merge s).2 = s := by
  simp only [find_clusters_to_merge]
  split
  · rfl
  · rfl

/-! ## Matrix writes -/

theorem writeProx_apply (m : ProxMatrix β) (i j : ℕ) (v : β) (a b : ℕ) :
    writeProx m i j v a b = if a = i ∧ b = j then v else m a b := rfl

theorem foldl_writeProx_col {β : Type} (c : ℕ) (v : ℕ → β) :
    ∀ (l : List ℕ) (m₀ : ProxMatrix β) (a b : ℕ),
      (l.foldl (fun m i => writeProx m i c (v i)) m₀) a b =
        if a ∈ l ∧ b = c then v a else m₀ a b := by
  intro l
  induction l with
  | nil => intro m₀ a b; simp
  | cons x xs ih =>
      intro m₀ a b
      rw [List.foldl_cons, ih]
      by_cases hmem : a ∈ xs ∧ b = c
      · rw [if_pos hmem, if_pos ⟨List.mem_cons_of_mem x hmem.1, hmem.2⟩]
      · rw [if_neg hmem, writeProx_apply]
        by_cases hax : a = x ∧ b = c
        · rw [if_pos hax,
            if_pos ⟨by rw [hax.1]; exact List.mem_cons_self x xs, hax.2⟩, hax.1]
        · rw [if_neg hax, if_neg ?hcon]
          case hcon =>
            intro hcon
            rcases List.mem_cons.mp hcon.1 with h₁ | h₁
            · exact hax ⟨h₁, hcon.2⟩
            · exact hmem ⟨h₁, hcon.2⟩

theorem foldl_writeProx_pairs {β : Type} (g : ℕ × ℕ → β) :
    ∀ (ps : List (ℕ × ℕ)) (m₀ : ProxMatrix β) (a b : ℕ),
      (ps.foldl (fun m ij => writeProx m ij.1 ij.2 (g ij)) m₀) a b =
        if (a, b) ∈ ps then g (a, b) else m₀ a b := by
  intro ps
  induction ps with
  | nil => intro m₀ a b; simp
  | cons x xs ih =>
      intro m₀ a b
      rw [List.foldl_cons, ih]
      by_cases hmem : (a, b) ∈ xs
      · rw [if_pos hmem, if_pos (List.mem_cons_of_mem x hmem)]
      · rw [if_neg hmem, writeProx_apply]
        by_cases hax : a = x.1 ∧ b = x.2
        · have hx : (a, b) = x := by
            rw [Prod.ext_iff]; exact hax
          rw [if_pos hax, if_pos (by rw [hx]; exact List.mem_cons_self x xs), hx]
        · rw [if_neg hax, if_neg ?hcon]
          case hcon =>
            intro hcon
            rcases List.mem_cons.mp hcon with h₁ | h₁
            · exact hax (Prod.ext_iff.mp h₁)
            · exact hmem h₁

/-! ## Effect of merge_cluster on the registry -/

theorem merge_fst (s : EngState α β) (p q : ℕ) :
    (merge_cluster s p q).1 = s.clusters.length := by
  simp [merge_cluster]

theorem merge_clusters_length (s : EngState α β) (p q : ℕ) :
    (merge_cluster s p q).2.clusters.length = s.clusters.length + 1 := by
  simp [merge_cluster]

theorem merge_prox (s : EngState α β) (p q : ℕ) :
    (merge_cluster s p q).2.proximity_matrix = s.proximity_matrix := rfl

theorem merge_items (s : EngState α β) (p q : ℕ) :
    (merge_cluster s p q).2.items = s.items := rfl

theorem merge_n_items (s : EngState α β) (p q : ℕ) :
    (merge_cluster s p q).2.n_items = s.n_items := rfl

theorem merge_getD_q (s : EngState α β) (p q : ℕ) (hq : q < s.clusters.length) :
    (merge_cluster s p q).2.clusters.getD q default = ⟨[], false⟩ := by
  simp only [merge_cluster, MyCluster.release]
  rw [List.getD_eq_getElem?_getD, List.getElem?_set]
  simp [List.length_set, List.length_append, Nat.lt_succ_of_lt hq]

theorem merge_getD_p (s : EngState α β) (p q : ℕ) (hp : p < s.clusters.length)
    (hpq : p ≠ q) :
    (merge_cluster s p q).2.clusters.getD p default = ⟨[], false⟩ := by
  simp only [merge_cluster, MyCluster.release]
  rw [List.getD_eq_getElem?_getD, List.getElem?_set, List.getElem?_set]
  simp [List.length_append, Nat.lt_succ_of_lt hp, Ne.symm hpq]

theorem merge_getD_new (s : EngState α β) (p q : ℕ) (hp : p < s.clusters.length)
    (hq : q < s.clusters.length) :
    (merge_cluster s p q).2.clusters.getD s.clusters.length default =
      ⟨(s.clusters.getD p default).items ++ (s.clusters.getD q default).items,
        true⟩ := by
  simp only [merge_cluster, MyCluster.release]
  rw [List.getD_eq_getElem?_getD, List.getElem?_set, List.getElem?_set,
    List.getElem?_append]
  simp [Nat.ne_of_lt hp, Nat.ne_of_lt hq]

theorem merge_getD_other (s : EngState α β) (p q i : ℕ) (hip : i ≠ p)
    (hiq : i ≠ q) (hilen : i ≠ s.clusters.length) :
    (merge_cluster s p q).2.clusters.getD i default =
      s.clusters.getD i default := by
  simp only [merge_cluster, MyCluster.release]
  rw [List.getD_eq_getElem?_getD, List.getElem?_set, List.getElem?_set,
    List.getElem?_append]
  by_cases hi : i < s.clusters.length
  · simp [Ne.symm hip, Ne.symm hiq, hi, List.getD_eq_getElem?_getD]
  · obtain ⟨k, hk⟩ : ∃ k, i - s.clusters.length = k + 1 :=
      ⟨i - s.clusters.length - 1, by omega⟩
    rw [if_neg (Ne.symm hiq), if_neg (Ne.symm hip), if_neg hi, hk]
    simp [List.getD_eq_getElem?_getD, List.getElem?_eq_none (le_of_not_lt hi)]

/-! ## Effect of update_proximity -/

theorem update_clusters (lf : LinkFun α β) (s : EngState α β) (c : ℕ) :
    (update_proximity lf s c).clusters = s.clusters := rfl

theorem update_items (lf : LinkFun α β) (s : EngState α β) (c : ℕ) :
    (update_proximity lf s c).items = s.items := rfl

theorem update_n_items (lf : LinkFun α β) (s : EngState α β) (c : ℕ) :
    (update_proximity lf s c).n_items = s.n_items := rfl

theorem update_prox_apply (lf : LinkFun α β) (s : EngState α β) (c a b : ℕ) :
    (update_proximity lf s c).proximity_matrix a b =
      if a ∈ (remaining_clusters s.clusters).dropLast ∧ b = c
      then lf s.items s.clusters a c
      else s.proximity_matrix a b := by
  simp only [update_proximity]
  exact foldl_writeProx_col c (fun i => lf s.items s.clusters i c) _ _ a b

/-! ## The remaining list around a merge -/

theorem remaining_clusters_concat_last {cs : List MyCluster} {n : ℕ}
    (hn : cs.length = n + 1) (hu : (cs.getD n default).used = true) :
    remaining_clusters cs =
      ((List.range n).filter fun i => (cs.getD i default).used) ++ [n] := by
  unfold remaining_clusters
  rw [hn, List.range_succ, List.filter_append]
  have hu' : (cs[n]?.getD default).used = true := by
    rw [← List.getD_eq_getElem?_getD]; exact hu
  simp [hu']

theorem length_filter_ne {p : ℕ} :
    ∀ {l : List ℕ}, l.Nodup → p ∈ l →
      (l.filter fun i => decide (i ≠ p)).length + 1 = l.length := by
  intro l
  induction l with
  | nil => intro _ hp; cases hp
  | cons x xs ih =>
      intro hnd hp
      rw [List.nodup_cons] at hnd
      rcases List.mem_cons.mp hp with rfl | hmem
      · rw [List.filter_cons_of_neg (by simp)]
        rw [List.filter_eq_self.mpr fun a ha => by
          simp only [decide_eq_true_eq]
          intro hax
          exact hnd.1 (hax ▸ ha)]
        simp
      · have hxp : x ≠ p := fun h => hnd.1 (h ▸ hmem)
        rw [List.filter_cons_of_pos (by simpa using hxp)]
        have := ih hnd.2 hmem
        simp only [List.length_cons]
        omega

theorem length_filter_ne₂ {p q : ℕ} {l : List ℕ} (hnd : l.Nodup) (hp : p ∈ l)
    (hq : q ∈ l) (hpq : p ≠ q) :
    (l.filter fun i => decide (i ≠ p) && decide (i ≠ q)).length + 2 = l.length := by
  rw [← List.filter_filter]
  have h₁ : (l.filter fun i => decide (i ≠ q)).length + 1 = l.length :=
    length_filter_ne hnd hq
  have hpmem : p ∈ l.filter fun i => decide (i ≠ q) :=
    List.mem_filter.mpr ⟨hp, by simpa using hpq⟩
  have h₂ := length_filter_ne (List.Nodup.filter _ hnd) hpmem
  omega

/-! ## Positivity of linkage values -/

theorem foldl_min_pos {β : Type} [LinearOrder β] [Zero β] :
    ∀ (xs : List β) (x : β), 0 < x → (∀ y ∈ xs, 0 < y) → 0 < xs.foldl min x := by
  intro xs
  induction xs with
  | nil => intro x hx _; exact hx
  | cons y ys ih =>
      intro x hx hall
      rw [List.foldl_cons]
      exact ih (min x y) (lt_min hx (hall y (List.mem_cons_self y ys)))
        fun z hz => hall z (List.mem_cons_of_mem y hz)

theorem foldl_max_pos {β : Type} [LinearOrder β] [Zero β] :
    ∀ (xs : List β) (x : β), 0 < x → 0 < xs.foldl max x := by
  intro xs
  induction xs with
  | nil => intro x hx; exact hx
  | cons y ys ih =>
      intro x hx
      rw [List.foldl_cons]
      exact ih (max x y) (lt_max_of_lt_left hx)

theorem listMin_pos {β : Type} [LinearOrder β] [Zero β] {l : List β}
    (hne : l ≠ []) (hpos : ∀ x ∈ l, 0 < x) : 0 < listMin l := by
  cases l with
  | nil => exact absurd rfl hne
  | cons x xs =>
      exact foldl_min_pos xs x (hpos x (List.mem_cons_self x xs))
        fun y hy => hpos y (List.mem_cons_of_mem x hy)

theorem listMax_pos {β : Type} [LinearOrder β] [Zero β] {l : List β}
    (hne : l ≠ []) (hpos : ∀ x ∈ l, 0 < x) : 0 < listMax l := by
  cases l with
  | nil => exact absurd rfl hne
  | cons x xs => exact foldl_max_pos xs x (hpos x (List.mem_cons_self x xs))

theorem linkage_pos [Inhabited α] [LinearOrder β] [Zero β]
    (dist : α → α → β) (points : List α) (clusters : List MyCluster) (p q : ℕ)
    (lf : LinkFun α β)
    (hlf : lf = single_linkage dist ∨ lf = complete_linkage dist)
    (hne₁ : (clusters.getD p default).items ≠ [])
    (hne₂ : (clusters.getD q default).items ≠ [])
    (hpos : ∀ x ∈ (clusters.getD p default).items,
      ∀ y ∈ (clusters.getD q default).items,
        0 < dist (points.getD x default) (points.getD y default)) :
    0 < lf points clusters p q := by
  obtain ⟨a, ha⟩ := List.exists_mem_of_ne_nil _ hne₁
  obtain ⟨b, hb⟩ := List.exists_mem_of_ne_nil _ hne₂
  have hmem : dist (points.getD a default) (points.getD b default) ∈
      ((clusters.getD p default).items.map fun x => points.getD x default).flatMap
        fun u => ((clusters.getD q default).items.map fun y =>
          points.getD y default).map fun v => dist u v := by
    rw [List.mem_flatMap]
    exact ⟨points.getD a default, List.mem_map_of_mem _ ha,
      List.mem_map_of_mem _ (List.mem_map_of_mem _ hb)⟩
  have hposall : ∀ z ∈ ((clusters.getD p default).items.map fun x =>
      points.getD x default).flatMap fun u =>
        ((clusters.getD q default).items.map fun y =>
          points.getD y default).map fun v => dist u v, 0 < z := by
    intro z hz
    rw [List.mem_flatMap] at hz
    obtain ⟨u, hu, hz⟩ := hz
    rw [List.mem_map] at hu hz
    obtain ⟨x, hx, rfl⟩ := hu
    obtain ⟨v, hv, rfl⟩ := hz
    rw [List.mem_map] at hv
    obtain ⟨y, hy, rfl⟩ := hv
    exact hpos x hx y hy
  rcases hlf with rfl | rfl
  · exact listMin_pos (List.ne_nil_of_mem hmem) hposall
  · exact listMax_pos (List.ne_nil_of_mem hmem) hposall

/-! ## The initial state -/

theorem mem_upperPairs {n i j : ℕ} :
    (i, j) ∈ upperPairs n ↔ i < j ∧ j < n := by
  simp only [upperPairs, List.mem_flatMap, List.mem_map, List.mem_range,
    List.mem_range'_1, Prod.mk.injEq]
  constructor
  · rintro ⟨a, ha, b, ⟨hb₁, hb₂⟩, rfl, rfl⟩
    omega
  · rintro ⟨hij, hjn⟩
    exact ⟨i, by omega, j, ⟨by omega, by omega⟩, rfl, rfl⟩

theorem init_cluster_getD {X : List α} {i : ℕ} (hi : i < X.length) :
    ((init_cluster X).2.getD i default) = ⟨[i], true⟩ := by
  simp [init_cluster, List.getD_eq_getElem?_getD, List.getElem?_map,
    List.getElem?_range hi]

theorem init_cluster_getD_oob {X : List α} {i : ℕ} (hi : ¬ i < X.length) :
    ((init_cluster X).2.getD i default) = ⟨[], true⟩ := by
  have : ((List.range X.length).map fun i =>
      ({ items := [i], used := true } : MyCluster)).length ≤ i := by
    simpa using le_of_not_lt hi
  simp [init_cluster, List.getD_eq_getElem?_getD, List.getElem?_eq_none this]
  rfl

theorem initState_clusters_length [Inhabited α] [LinearOrder β] [Zero β]
    (dist : α → α → β) (X : List α) :
    (initState dist X : EngState α β).clusters.length = X.length := by
  simp [initState, init_cluster]

theorem initState_prox [Inhabited α] [LinearOrder β] [Zero β]
    (dist : α → α → β) (X : List α) (a b : ℕ) :
    (initState dist X : EngState α β).proximity_matrix a b =
      if a < b ∧ b < X.length
      then dist (X.getD a default) (X.getD b default) else 0 := by
  have hlen : ((List.range X.length).map fun i =>
      ({ items := [i], used := true } : MyCluster)).length = X.length := by simp
  simp only [initState, init_cluster, init_proximity]
  rw [foldl_writeProx_pairs (fun ij =>
    dist (X.getD ((((List.range X.length).map fun i =>
        ({ items := [i], used := true } : MyCluster)).getD ij.1 default).items.getD 0 0)
      default)
      (X.getD ((((List.range X.length).map fun i =>
        ({ items := [i], used := true } : MyCluster)).getD ij.2 default).items.getD 0 0)
      default))]
  rw [hlen]
  by_cases hab : a < b ∧ b < X.length
  · rw [if_pos (mem_upperPairs.mpr hab), if_pos hab]
    have ha : a < X.length := lt_trans hab.1 hab.2
    have hga := init_cluster_getD (X := X) ha
    have hgb := init_cluster_getD (X := X) hab.2
    simp only [init_cluster] at hga hgb
    rw [hga, hgb]
    rfl
  · rw [if_neg (fun h => hab (mem_upperPairs.mp h)), if_neg hab]

theorem initState_remaining [Inhabited α] [LinearOrder β] [Zero β]
    (dist : α → α → β) (X : List α) :
    remaining_clusters (initState dist X : EngState α β).clusters =
      List.range X.length := by
  have : (initState dist X : EngState α β).clusters = (List.range X.length).map
      fun i => ({ items := [i], used := true } : MyCluster) := rfl
  rw [remaining_clusters, this]
  rw [List.filter_eq_self.mpr]
  · simp
  · intro i hi
    simp only [List.length_map, List.length_range] at hi
    rw [List.mem_range] at hi
    have := init_cluster_getD (X := X) hi
    simp only [init_cluster] at this
    rw [this]

theorem initState_inv [Inhabited α] [LinearOrder β] [Zero β]
    (dist : α → α → β) (X : List α) :
    FitInv X (initState dist X : EngState α β) := by
  have hrem := initState_remaining dist X
  have hlen := initState_clusters_length dist X
  have hgetD : ∀ i ∈ List.range X.length,
      ((initState dist X : EngState α β).clusters.getD i default) = ⟨[i], true⟩ := by
    intro i hi
    rw [List.mem_range] at hi
    have := init_cluster_getD (X := X) hi
    simpa [initState] using this
  refine ⟨rfl, rfl, ?_, ?_, ?_, ?_, ?_, ?_⟩
  · rw [hrem, hlen]; simp; ring
  · intro i hi
    rw [hrem] at hi
    rw [hgetD i hi]
    simp
  · intro i hi x hx
    rw [hrem] at hi
    rw [hgetD i hi] at hx
    rw [List.mem_singleton] at hx
    rw [List.mem_range] at hi
    omega
  · intro i hi j hj hij x hxi hxj
    rw [hrem] at hi hj
    rw [hgetD i hi] at hxi
    rw [hgetD j hj] at hxj
    rw [List.mem_singleton] at hxi hxj
    exact hij (hxi ▸ hxj ▸ rfl)
  · intro x hx
    refine ⟨x, ?_, ?_⟩
    · rw [hrem, List.mem_range]; exact hx
    · rw [hgetD x (List.mem_range.mpr hx)]
      exact List.mem_singleton_self x
  · intro a
    rw [initState_prox]
    rw [if_neg (by omega)]

theorem initState_pos [Inhabited α] [LinearOrder β] [Zero β]
    (dist : α → α → β) (X : List α)
    (hd : ∀ x, x < X.length → ∀ y, y < X.length → x ≠ y →
      0 < dist (X.getD x default) (X.getD y default)) :
    PosProx (initState dist X : EngState α β) := by
  intro a ha b hb hab
  rw [initState_remaining dist X, List.mem_range] at ha hb
  rw [initState_prox, if_pos ⟨hab, hb⟩]
  exact hd a ha b hb (Nat.ne_of_lt hab)

theorem remaining_after_merge (s : EngState α β) {p q : ℕ}
    (hp : p ∈ remaining_clusters s.clusters)
    (hq : q ∈ remaining_clusters s.clusters) (hpq : p ≠ q) :
    remaining_clusters (merge_cluster s p q).2.clusters =
      ((remaining_clusters s.clusters).filter fun i =>
        decide (i ≠ p) && decide (i ≠ q)) ++ [s.clusters.length] := by
  have hp' := (mem_remaining_clusters.mp hp).1
  have hq' := (mem_remaining_clusters.mp hq).1
  have hn : (merge_cluster s p q).2.clusters.length = s.clusters.length + 1 :=
    merge_clusters_length s p q
  have hu : ((merge_cluster s p q).2.clusters.getD s.clusters.length
      default).used = true := by
    rw [merge_getD_new s p q hp' hq']
  rw [remaining_clusters_concat_last hn hu]
  congr 1
  rw [remaining_clusters, List.filter_filter]
  apply List.filter_congr
  intro i hi
  rw [List.mem_range] at hi
  by_cases hip : i = p
  · subst hip
    rw [merge_getD_p s i q hp' hpq]
    simp
  · by_cases hiq : i = q
    · subst hiq
      rw [merge_getD_q s p i hq']
      simp
    · rw [merge_getD_other s p q i hip hiq (Nat.ne_of_lt hi)]
      simp [hip, hiq]

theorem mem_remaining_after_merge (s : EngState α β) {p q : ℕ}
    (hp : p ∈ remaining_clusters s.clusters)
    (hq : q ∈ remaining_clusters s.clusters) (hpq : p ≠ q) {i : ℕ} :
    i ∈ remaining_clusters (merge_cluster s p q).2.clusters ↔
      ((i ∈ remaining_clusters s.clusters ∧ i ≠ p ∧ i ≠ q) ∨
        i = s.clusters.length) := by
  rw [remaining_after_merge s hp hq hpq]
  simp [List.mem_append, List.mem_filter]

theorem remaining_after_merge_length (s : EngState α β) {p q : ℕ}
    (hp : p ∈ remaining_clusters s.clusters)
    (hq : q ∈ remaining_clusters s.clusters) (hpq : p ≠ q) :
    (remaining_clusters (merge_cluster s p q).2.clusters).length + 1 =
      (remaining_clusters s.clusters).length := by
  rw [remaining_after_merge s hp hq hpq]
  rw [List.length_append, List.length_singleton]
  have := length_filter_ne₂ (remaining_clusters_nodup s.clusters) hp hq hpq
  omega

theorem remaining_after_merge_dropLast (s : EngState α β) {p q : ℕ}
    (hp : p ∈ remaining_clusters s.clusters)
    (hq : q ∈ remaining_clusters s.clusters) (hpq : p ≠ q) :
    (remaining_clusters (merge_cluster s p q).2.clusters).dropLast =
      (remaining_clusters s.clusters).filter fun i =>
        decide (i ≠ p) && decide (i ≠ q) := by
  rw [remaining_after_merge s hp hq hpq, List.dropLast_concat]

/-! ## Preservation of the invariant by one merge step -/

theorem step_inv [Inhabited α] [LinearOrder β] [Zero β] {X : List α}
    {s : EngState α β} {p q : ℕ} (lf : LinkFun α β)
    (hInv : FitInv X s) (hfind : (find_clusters_to_merge s).1 = some (p, q)) :
    FitInv X (update_proximity lf (merge_cluster s p q).2
      (merge_cluster s p q).1) := by
  obtain ⟨hp, hq, hne0, _⟩ := find_some_spec hfind
  have hpq : p ≠ q := by
    intro h
    subst h
    exact hne0 (hInv.hdiag p)
  have hp' := (mem_remaining_clusters.mp hp).1
  have hq' := (mem_remaining_clusters.mp hq).1
  rw [merge_fst]
  have hmemIff := fun {i : ℕ} => mem_remaining_after_merge s hp hq hpq (i := i)
  have hgetD_old : ∀ {i : ℕ}, i ∈ remaining_clusters s.clusters → i ≠ p → i ≠ q →
      (merge_cluster s p q).2.clusters.getD i default =
        s.clusters.getD i default := by
    intro i hi hip hiq
    exact merge_getD_other s p q i hip hiq
      (Nat.ne_of_lt (mem_remaining_clusters.mp hi).1)
  have hgetD_new : (merge_cluster s p q).2.clusters.getD s.clusters.length default
      = ⟨(s.clusters.getD p default).items ++ (s.clusters.getD q default).items,
          true⟩ := merge_getD_new s p q hp' hq'
  constructor
  · rw [update_n_items, merge_n_items, hInv.hn]
  · rw [update_items, merge_items, hInv.hitems]
  · rw [update_clusters]
    have h₁ := remaining_after_merge_length s hp hq hpq
    have h₂ := merge_clusters_length s p q
    have h₃ := hInv.hcount
    omega
  · intro i hi
    rw [update_clusters] at hi ⊢
    rcases hmemIff.mp hi with ⟨hold, hip, hiq⟩ | rfl
    · rw [hgetD_old hold hip hiq]
      exact hInv.hne i hold
    · rw [hgetD_new]
      simp only [ne_eq, List.append_eq_nil, not_and]
      intro hcon
      exact absurd hcon (hInv.hne p hp)
  · intro i hi x hx
    rw [update_clusters] at hi hx
    rcases hmemIff.mp hi with ⟨hold, hip, hiq⟩ | rfl
    · rw [hgetD_old hold hip hiq] at hx
      exact hInv.hsub i hold x hx
    · rw [hgetD_new] at hx
      rcases List.mem_append.mp hx with hxp | hxq
      · exact hInv.hsub p hp x hxp
      · exact hInv.hsub q hq x hxq
  · intro i hi j hj hij x hxi hxj
    rw [update_clusters] at hi hj hxi hxj
    rcases hmemIff.mp hi with ⟨holdi, hipp, hiqq⟩ | rfl <;>
      rcases hmemIff.mp hj with ⟨holdj, hjpp, hjqq⟩ | hjL
    · rw [hgetD_old holdi hipp hiqq] at hxi
      rw [hgetD_old holdj hjpp hjqq] at hxj
      exact hInv.hdisj i holdi j holdj hij x hxi hxj
    · subst hjL
      rw [hgetD_old holdi hipp hiqq] at hxi
      rw [hgetD_new] at hxj
      rcases List.mem_append.mp hxj with hxp | hxq
      · exact hInv.hdisj p hp i holdi (Ne.symm hipp) x hxp hxi
      · exact hInv.hdisj q hq i holdi (Ne.symm hiqq) x hxq hxi
    · rw [hgetD_old holdj hjpp hjqq] at hxj
      rw [hgetD_new] at hxi
      rcases List.mem_append.mp hxi with hxp | hxq
      · exact hInv.hdisj p hp j holdj (Ne.symm hjpp) x hxp hxj
      · exact hInv.hdisj q hq j holdj (Ne.symm hjqq) x hxq hxj
    · subst hjL
      exact absurd rfl hij
  · intro x hx
    obtain ⟨i, hi, hxi⟩ := hInv.hcover x hx
    rw [update_clusters]
    by_cases hip : i = p
    · subst hip
      refine ⟨s.clusters.length, hmemIff.mpr (Or.inr rfl), ?_⟩
      rw [hgetD_new]
      exact List.mem_append_left _ hxi
    · by_cases hiq : i = q
      · subst hiq
        refine ⟨s.clusters.length, hmemIff.mpr (Or.inr rfl), ?_⟩
        rw [hgetD_new]
        exact List.mem_append_right _ hxi
      · refine ⟨i, hmemIff.mpr (Or.inl ⟨hi, hip, hiq⟩), ?_⟩
        rw [hgetD_old hi hip hiq]
        exact hxi
  · intro a
    rw [update_prox_apply]
    rw [if_neg ?hcond]
    case hcond =>
      rintro ⟨hmem, rfl⟩
      rw [remaining_after_merge_dropLast s hp hq hpq] at hmem
      have := (mem_remaining_clusters.mp (List.mem_filter.mp hmem).1).1
      omega
    rw [merge_prox]
    exact hInv.hdiag a

theorem step_pos [Inhabited α] [LinearOrder β] [Zero β] {X : List α}
    {s : EngState α β} {p q : ℕ} {dist : α → α → β} {lf : LinkFun α β}
    (hlf : lf = single_linkage dist ∨ lf = complete_linkage dist)
    (hd : ∀ x, x < X.length → ∀ y, y < X.length → x ≠ y →
      0 < dist (X.getD x default) (X.getD y default))
    (hInv : FitInv X s) (hpos : PosProx s)
    (hfind : (find_clusters_to_merge s).1 = some (p, q)) :
    PosProx (update_proximity lf (merge_cluster s p q).2
      (merge_cluster s p q).1) := by
  obtain ⟨hp, hq, hne0, _⟩ := find_some_spec hfind
  have hpq : p ≠ q := fun h => hne0 (h ▸ hInv.hdiag p)
  have hp' := (mem_remaining_clusters.mp hp).1
  have hq' := (mem_remaining_clusters.mp hq).1
  have hgetD_old : ∀ {i : ℕ}, i ∈ remaining_clusters s.clusters → i ≠ p → i ≠ q →
      (merge_cluster s p q).2.clusters.getD i default =
        s.clusters.getD i default := by
    intro i hi hip hiq
    exact merge_getD_other s p q i hip hiq
      (Nat.ne_of_lt (mem_remaining_clusters.mp hi).1)
  have hgetD_new := merge_getD_new s p q hp' hq'
  have hmemIff := fun {i : ℕ} => mem_remaining_after_merge s hp hq hpq (i := i)
  have hdropEq := remaining_after_merge_dropLast s hp hq hpq
  rw [merge_fst]
  intro a ha b hb hab
  rw [update_clusters] at ha hb
  rw [update_prox_apply]
  by_cases hcond : a ∈ (remaining_clusters
      (merge_cluster s p q).2.clusters).dropLast ∧ b = s.clusters.length
  · rw [if_pos hcond]
    obtain ⟨hadrop, hbL⟩ := hcond
    rw [hdropEq] at hadrop
    have hmf := List.mem_filter.mp hadrop
    have haold : a ∈ remaining_clusters s.clusters := hmf.1
    have hap : a ≠ p := by
      have := hmf.2
      simp only [Bool.and_eq_true, decide_eq_true_eq] at this
      exact this.1
    have haq : a ≠ q := by
      have := hmf.2
      simp only [Bool.and_eq_true, decide_eq_true_eq] at this
      exact this.2
    apply linkage_pos dist _ _ a s.clusters.length lf hlf
    · rw [hgetD_old haold hap haq]
      exact hInv.hne a haold
    · rw [hgetD_new]
      simp only [ne_eq, List.append_eq_nil, not_and]
      intro hcon
      exact absurd hcon (hInv.hne p hp)
    · intro x hx y hy
      rw [hgetD_old haold hap haq] at hx
      rw [hgetD_new] at hy
      have hitems₂ : (merge_cluster s p q).2.items = X := by
        rw [merge_items, hInv.hitems]
      rw [hitems₂]
      have hxN := hInv.hsub a haold x hx
      have hyN : y < X.length := by
        rcases List.mem_append.mp hy with h | h
        exacts [hInv.hsub p hp y h, hInv.hsub q hq y h]
      have hxy : x ≠ y := by
        rcases List.mem_append.mp hy with h | h
        · exact fun hh => hInv.hdisj a haold p hp hap x hx (hh ▸ h)
        · exact fun hh => hInv.hdisj a haold q hq haq x hx (hh ▸ h)
      exact hd x hxN y hyN hxy
  · rw [if_neg hcond]
    rw [merge_prox]
    by_cases hbL : b = s.clusters.length
    · exfalso
      rcases hmemIff.mp ha with ⟨haold, hap, haq⟩ | haL
      · apply hcond
        refine ⟨?_, hbL⟩
        rw [hdropEq]
        exact List.mem_filter.mpr ⟨haold, by simp [hap, haq]⟩
      · omega
    · rcases hmemIff.mp hb with ⟨hbold, hbp, hbq⟩ | hbL2
      · rcases hmemIff.mp ha with ⟨haold, hap, haq⟩ | haL
        · exact hpos a haold b hbold hab
        · exfalso
          have := (mem_remaining_clusters.mp hbold).1
          omega
      · exact absurd hbL2 hbL

/-! ## The merge loop -/

theorem fitLoop_sound [Inhabited α] [LinearOrder β] [Zero β] {X : List α}
    {lf : LinkFun α β} {bound : ℕ} :
    ∀ (fuel : ℕ) (s : EngState α β) (hist hist' : List (ℕ × ℕ))
      (s' : EngState α β), FitInv X s →
      fitLoop lf bound fuel s hist = some (hist', s') →
      FitInv X s' ∧ s'.clusters.length = max bound s.clusters.length ∧
        hist'.length = hist.length + (bound - s.clusters.length) := by
  intro fuel
  induction fuel with
  | zero =>
      intro s hist hist' s' hInv h
      rw [fitLoop] at h
      by_cases hc : s.clusters.length < bound
      · rw [if_pos hc] at h
        exact Option.noConfusion h
      · rw [if_neg hc] at h
        simp only [Option.some.injEq, Prod.mk.injEq] at h
        obtain ⟨rfl, rfl⟩ := h
        exact ⟨hInv, by omega, by omega⟩
  | succ fuel ih =>
      intro s hist hist' s' hInv h
      rw [fitLoop] at h
      by_cases hc : s.clusters.length < bound
      · rw [if_pos hc] at h
        have hsplit : find_clusters_to_merge s =
            ((find_clusters_to_merge s).1, s) :=
          Prod.ext rfl (find_state_eq s)
        rw [hsplit] at h
        cases hr : (find_clusters_to_merge s).1 with
        | none =>
            rw [hr] at h
            exact Option.noConfusion h
        | some pq =>
            obtain ⟨p, q⟩ := pq
            rw [hr] at h
            replace h : fitLoop lf bound fuel
                (update_proximity lf (merge_cluster s p q).2
                  (merge_cluster s p q).1) (hist ++ [(p, q)]) =
                some (hist', s') := h
            have hInv₂ := step_inv lf hInv hr
            have hlen₂ : (update_proximity lf (merge_cluster s p q).2
                (merge_cluster s p q).1).clusters.length =
                s.clusters.length + 1 := by
              rw [update_clusters, merge_clusters_length]
            obtain ⟨hI, hL, hH⟩ := ih _ _ _ _ hInv₂ h
            refine ⟨hI, ?_, ?_⟩
            · rw [hL, hlen₂]
              omega
            · rw [hH, hlen₂]
              simp only [List.length_append, List.length_singleton]
              omega
      · rw [if_neg hc] at h
        simp only [Option.some.injEq, Prod.mk.injEq] at h
        obtain ⟨rfl, rfl⟩ := h
        exact ⟨hInv, by omega, by omega⟩

theorem fitLoop_complete [Inhabited α] [LinearOrder β] [Zero β] {X : List α}
    {dist : α → α → β} {lf : LinkFun α β} {bound : ℕ}
    (hlf : lf = single_linkage dist ∨ lf = complete_linkage dist)
    (hd : ∀ x, x < X.length → ∀ y, y < X.length → x ≠ y →
      0 < dist (X.getD x default) (X.getD y default))
    (hb : bound + 1 ≤ 2 * X.length) :
    ∀ (fuel : ℕ) (s : EngState α β) (hist : List (ℕ × ℕ)), FitInv X s →
      PosProx s → bound < s.clusters.length + fuel →
      ∃ hist' s', fitLoop lf bound fuel s hist = some (hist', s') := by
  intro fuel
  induction fuel with
  | zero =>
      intro s hist hInv hpos hfuel
      rw [fitLoop, if_neg (by omega)]
      exact ⟨hist, s, rfl⟩
  | succ fuel ih =>
      intro s hist hInv hpos hfuel
      by_cases hc : s.clusters.length < bound
      · have hrct : (remaining_clusters s.clusters).length +
            s.clusters.length = 2 * X.length := hInv.hcount
        have hrem2 : 2 ≤ (remaining_clusters s.clusters).length := by omega
        obtain ⟨a, b, rest, hab⟩ : ∃ a b rest,
            remaining_clusters s.clusters = a :: b :: rest := by
          cases hr : remaining_clusters s.clusters with
          | nil => rw [hr] at hrem2; exact absurd hrem2 (by simp)
          | cons a tl =>
              cases tl with
              | nil => rw [hr] at hrem2; exact absurd hrem2 (by simp)
              | cons b rest => exact ⟨a, b, rest, rfl⟩
        have hamem : a ∈ remaining_clusters s.clusters := by
          rw [hab]; exact List.mem_cons_self a _
        have hbmem : b ∈ remaining_clusters s.clusters := by
          rw [hab]; exact List.mem_cons_of_mem a (List.mem_cons_self b rest)
        have haltb : a < b := by
          have := remaining_clusters_sorted s.clusters
          rw [hab] at this
          exact (List.pairwise_cons.mp this).1 b
            (List.mem_cons_self b rest)
        have hne0 : s.proximity_matrix a b ≠ 0 :=
          ne_of_gt (hpos a hamem b hbmem haltb)
        obtain ⟨p, q, hpq⟩ := find_exists hamem hbmem hne0
        rw [fitLoop, if_pos hc]
        have hsplit : find_clusters_to_merge s =
            ((find_clusters_to_merge s).1, s) :=
          Prod.ext rfl (find_state_eq s)
        rw [hsplit, hpq]
        have hInv₂ := step_inv lf hInv hpq
        have hpos₂ := step_pos hlf hd hInv hpos hpq
        have hlen₂ : (update_proximity lf (merge_cluster s p q).2
            (merge_cluster s p q).1).clusters.length =
            s.clusters.length + 1 := by
          rw [update_clusters, merge_clusters_length]
        obtain ⟨hist', s', hres⟩ := ih _ (hist ++ [(p, q)]) hInv₂ hpos₂
          (by omega)
        exact ⟨hist', s', hres⟩
      · rw [fitLoop, if_neg hc]
        exact ⟨hist, s, rfl⟩

/-! ## Claim theorems -/

/-- C1: whenever at least two clusters are active and at least one eligible
(nonzero) proximity entry exists between remaining ids,
`find_clusters_to_merge` returns a pair of active cluster ids whose entry
is minimal among all eligible entries (zero entries are not eligible),
with ties broken by the first pair in ascending (row, column) order. -/
theorem find_clusters_to_merge_selects_min {α β : Type} [LinearOrder β] [Zero β]
    (s : EngState α β)
    (hact : 2 ≤ (remaining_clusters s.clusters).length)
    (hex : ∃ a b, a ∈ remaining_clusters s.clusters ∧
      b ∈ remaining_clusters s.clusters ∧ s.proximity_matrix a b ≠ 0) :
    ∃ p q, (find_clusters_to_merge s).1 = some (p, q) ∧
      p ∈ remaining_clusters s.clusters ∧ q ∈ remaining_clusters s.clusters ∧
      s.proximity_matrix p q ≠ 0 ∧
      ∀ a b, a ∈ remaining_clusters s.clusters →
        b ∈ remaining_clusters s.clusters → s.proximity_matrix a b ≠ 0 →
        s.proximity_matrix p q ≤ s.proximity_matrix a b ∧
        (s.proximity_matrix a b ≤ s.proximity_matrix p q → pairLE (p, q) (a, b)) := by
  obtain ⟨a, b, ha, hb, hab⟩ := hex
  obtain ⟨p, q, hpq⟩ := find_exists ha hb hab
  obtain ⟨h1, h2, h3, h4⟩ := find_some_spec hpq
  exact ⟨p, q, hpq, h1, h2, h3, h4⟩

theorem find_clusters_to_merge_selects_min_witness :
    ∃ p q, (find_clusters_to_merge (initState absDist [(0 : ℤ), 2, 10])).1 =
        some (p, q) ∧
      p ∈ remaining_clusters (initState absDist
        [(0 : ℤ), 2, 10] : EngState ℤ ℤ).clusters ∧
      q ∈ remaining_clusters (initState absDist
        [(0 : ℤ), 2, 10] : EngState ℤ ℤ).clusters ∧
      (initState absDist [(0 : ℤ), 2, 10]).proximity_matrix p q ≠ 0 ∧
      ∀ a b, a ∈ remaining_clusters (initState absDist
          [(0 : ℤ), 2, 10] : EngState ℤ ℤ).clusters →
        b ∈ remaining_clusters (initState absDist
          [(0 : ℤ), 2, 10] : EngState ℤ ℤ).clusters →
        (initState absDist [(0 : ℤ), 2, 10]).proximity_matrix a b ≠ 0 →
        (initState absDist [(0 : ℤ), 2, 10]).proximity_matrix p q ≤
          (initState absDist [(0 : ℤ), 2, 10]).proximity_matrix a b ∧
        ((initState absDist [(0 : ℤ), 2, 10]).proximity_matrix a b ≤
            (initState absDist [(0 : ℤ), 2, 10]).proximity_matrix p q →
          pairLE (p, q) (a, b)) :=
  find_clusters_to_merge_selects_min (initState absDist [(0 : ℤ), 2, 10])
    (by decide) ⟨0, 1, by decide, by decide, by decide⟩

/-- C3: merging two distinct active clusters `p` and `q` creates a new
cluster whose member list is the concatenation of the members of `p`
followed by those of `q`, deactivates `p` and `q` clearing their member
lists, and returns the registry size before the merge as the new id. -/
theorem merge_cluster_spec {α β : Type} (s : EngState α β) (p q : ℕ)
    (hp : p ∈ remaining_clusters s.clusters)
    (hq : q ∈ remaining_clusters s.clusters) (hpq : p ≠ q) :
    (merge_cluster s p q).1 = s.clusters.length ∧
    (merge_cluster s p q).2.clusters.getD s.clusters.length default =
      ⟨(s.clusters.getD p default).items ++ (s.clusters.getD q default).items,
        true⟩ ∧
    (merge_cluster s p q).2.clusters.getD p default = ⟨[], false⟩ ∧
    (merge_cluster s p q).2.clusters.getD q default = ⟨[], false⟩ := by
  have hp' := (mem_remaining_clusters.mp hp).1
  have hq' := (mem_remaining_clusters.mp hq).1
  exact ⟨merge_fst s p q, merge_getD_new s p q hp' hq',
    merge_getD_p s p q hp' hpq, merge_getD_q s p q hq'⟩

theorem merge_cluster_spec_witness :
    (merge_cluster (initState absDist [(0 : ℤ), 2, 10]) 0 2).1 = 3 ∧
    (merge_cluster (initState absDist [(0 : ℤ), 2, 10]) 0 2).2.clusters.getD 3
      default = ⟨[0, 2], true⟩ ∧
    (merge_cluster (initState absDist [(0 : ℤ), 2, 10]) 0 2).2.clusters.getD 0
      default = ⟨[], false⟩ ∧
    (merge_cluster (initState absDist [(0 : ℤ), 2, 10]) 0 2).2.clusters.getD 2
      default = ⟨[], false⟩ :=
  merge_cluster_spec (initState absDist [(0 : ℤ), 2, 10]) 0 2
    (by decide) (by decide) (by decide)

/-- C5 (amended): the proximity matrix uses the number zero itself as the
not-yet-computed marker, so a zero entry is never eligible: the selection
never returns a pair whose matrix entry is zero, and a pair of active
clusters whose computed proximity is exactly zero is treated as unset. -/
theorem zero_entries_never_selected {α β : Type} [LinearOrder β] [Zero β]
    (s : EngState α β) (p q : ℕ)
    (h : (find_clusters_to_merge s).1 = some (p, q)) :
    s.proximity_matrix p q ≠ 0 :=
  (find_some_spec h).2.2.1

theorem zero_entries_never_selected_witness :
    (initState absDist [(0 : ℤ), 2, 10]).proximity_matrix 0 1 ≠ 0 :=
  zero_entries_never_selected (initState absDist [(0 : ℤ), 2, 10]) 0 1
    (by decide)

/-- C5 (counterexample to the claim as stated): on the duplicate-point
input `[0, 0]` the two singleton clusters are active and their true
single-linkage proximity is exactly `0`, yet the nearest-pair selection
finds no eligible entry at all (the zero entry is masked as NaN and
`np.nanargmin` raises): the zero-proximity pair is spuriously treated as
unset rather than remaining eligible. -/
theorem zero_proximity_pair_treated_as_unset :
    (find_clusters_to_merge (initState absDist [(0 : ℤ), 0])).1 = none ∧
    0 ∈ remaining_clusters (initState absDist
      [(0 : ℤ), 0] : EngState ℤ ℤ).clusters ∧
    1 ∈ remaining_clusters (initState absDist
      [(0 : ℤ), 0] : EngState ℤ ℤ).clusters ∧
    single_linkage absDist (initState absDist [(0 : ℤ), 0] : EngState ℤ ℤ).items
      (initState absDist [(0 : ℤ), 0]).clusters 0 1 = 0 := by
  refine ⟨by decide, by decide, by decide, by decide⟩

/-- C9: constructing the engine with a linkage name outside
`{"single", "complete"}` fails at construction time with the dictionary
`KeyError`; no engine value is produced, so `fit` can never be reached. -/
theorem unknown_linkage_constructor_error {α β : Type} [Inhabited α]
    [LinearOrder β] [Zero β] (dist : α → α → β) (n_clusters : ℕ)
    (linkage : String) (h₁ : linkage ≠ "single") (h₂ : linkage ≠ "complete") :
    mkMyAgglomerativeClustering (α := α) dist n_clusters linkage =
      Except.error KeyError.keyError := by
  unfold mkMyAgglomerativeClustering
  rw [if_neg h₁, if_neg h₂]

theorem unknown_linkage_constructor_error_witness :
    mkMyAgglomerativeClustering (α := ℤ) (β := ℤ) absDist 1 "average" =
      Except.error KeyError.keyError :=
  unknown_linkage_constructor_error absDist 1 "average" (by decide) (by decide)

/-- C10: `find_clusters_to_merge` is observationally read-only: the
proximity matrix and the cluster registry after the call are the values
before it (the masked sub-matrix is a numpy fancy-indexing copy, not a
view), and indeed the whole state is returned unchanged. -/
theorem find_clusters_to_merge_readonly {α β : Type} [LinearOrder β] [Zero β]
    (s : EngState α β) :
    (find_clusters_to_merge s).2.proximity_matrix = s.proximity_matrix ∧
    (find_clusters_to_merge s).2.clusters = s.clusters ∧
    (find_clusters_to_merge s).2 = s := by
  refine ⟨?_, ?_, find_state_eq s⟩ <;> rw [find_state_eq s]

/-- C4: updating after a merge that created cluster `m` (the active cluster
of largest id, the last registry entry) stores, for every id `i` active
after the merge and distinct from `m`, the configured linkage proximity at
entry `(i, m)` with the lower id `i < m` as row, and changes no other
matrix entry; the registry itself is untouched. -/
theorem update_proximity_spec {α β : Type} (lf : LinkFun α β)
    (s : EngState α β) (m : ℕ) (hm : m + 1 = s.clusters.length)
    (hmu : (s.clusters.getD m default).used = true) :
    (∀ i ∈ remaining_clusters s.clusters, i ≠ m →
      i < m ∧ (update_proximity lf s m).proximity_matrix i m =
        lf s.items s.clusters i m) ∧
    (∀ a b : ℕ, ¬ (a ∈ remaining_clusters s.clusters ∧ a ≠ m ∧ b = m) →
      (update_proximity lf s m).proximity_matrix a b =
        s.proximity_matrix a b) ∧
    (update_proximity lf s m).clusters = s.clusters := by
  have hrem := remaining_clusters_concat_last hm.symm hmu
  have hdrop : (remaining_clusters s.clusters).dropLast =
      (List.range m).filter fun i => (s.clusters.getD i default).used := by
    rw [hrem, List.dropLast_concat]
  have hdropIff : ∀ i : ℕ, i ∈ (remaining_clusters s.clusters).dropLast ↔
      (i ∈ remaining_clusters s.clusters ∧ i ≠ m) := by
    intro i
    rw [hdrop]
    constructor
    · intro hi
      have h₁ := List.mem_filter.mp hi
      have h₂ := List.mem_range.mp h₁.1
      exact ⟨mem_remaining_clusters.mpr ⟨by omega, h₁.2⟩, by omega⟩
    · rintro ⟨hi, hne⟩
      have h₁ := mem_remaining_clusters.mp hi
      exact List.mem_filter.mpr ⟨List.mem_range.mpr (by omega), h₁.2⟩
  refine ⟨?_, ?_, rfl⟩
  · intro i hi hne
    have hidrop := (hdropIff i).mpr ⟨hi, hne⟩
    have hilt : i < m := by
      rw [hdrop] at hidrop
      exact List.mem_range.mp (List.mem_filter.mp hidrop).1
    refine ⟨hilt, ?_⟩
    rw [update_prox_apply, if_pos ⟨hidrop, rfl⟩]
  · intro a b hcon
    rw [update_prox_apply, if_neg ?hc]
    case hc =>
      rintro ⟨hadrop, rfl⟩
      exact hcon ⟨((hdropIff a).mp hadrop).1, ((hdropIff a).mp hadrop).2, rfl⟩

theorem update_proximity_spec_witness :
    2 < 3 ∧ (update_proximity (single_linkage absDist)
      (merge_cluster (initState absDist [(0 : ℤ), 2, 10]) 0 1).2
      3).proximity_matrix 2 3 =
      single_linkage absDist
        (merge_cluster (initState absDist [(0 : ℤ), 2, 10]) 0 1).2.items
        (merge_cluster (initState absDist [(0 : ℤ), 2, 10]) 0 1).2.clusters
        2 3 :=
  (update_proximity_spec (single_linkage absDist)
    (merge_cluster (initState absDist [(0 : ℤ), 2, 10]) 0 1).2 3
    (by decide) (by decide)).1 2 (by decide) (by decide)

/-- C2 (counterexample to the claim as stated): for the two duplicate
points `[0, 0]` with target count `1` the claim demands a history of
length `1`, but the initial proximity entry is `0`, is treated as unset,
`np.nanargmin` raises, and `fit` produces no history at all. -/
theorem fit_history_length_counterexample :
    fit absDist { n_clusters := 1, linkage_func := single_linkage absDist }
      [(0 : ℤ), 0] = none := by decide

/-- C2 (amended): for every input whose points are pairwise at positive
distance, with a single- or complete-linkage engine and a target count
with `1 ≤ target ≤ N`, `fit` returns a history of length exactly
`N - target`. -/
theorem fit_history_length {α β : Type} [Inhabited α] [LinearOrder β] [Zero β]
    (dist : α → α → β) (e : MyAgglomerativeClustering α β) (X : List α)
    (hlf : e.linkage_func = single_linkage dist ∨
      e.linkage_func = complete_linkage dist)
    (hk1 : 1 ≤ e.n_clusters) (hkN : e.n_clusters ≤ X.length)
    (hd : ∀ x, x < X.length → ∀ y, y < X.length → x ≠ y →
      0 < dist (X.getD x default) (X.getD y default)) :
    ∃ h, fit dist e X = some h ∧ h.length = X.length - e.n_clusters := by
  have hlen₀ := initState_clusters_length dist X
  have hb : (2 * X.length - e.n_clusters) + 1 ≤ 2 * X.length := by omega
  obtain ⟨hist', s', hrun⟩ := fitLoop_complete hlf hd hb
    (2 * X.length - e.n_clusters + 1) (initState dist X) []
    (initState_inv dist X) (initState_pos dist X hd)
    (by rw [hlen₀]; omega)
  obtain ⟨_, _, hH⟩ := fitLoop_sound _ _ _ _ _ (initState_inv dist X) hrun
  rw [hlen₀] at hH
  refine ⟨hist', ?_, ?_⟩
  · have hn : (initState dist X : EngState α β).n_items = X.length := rfl
    simp only [fit, fit_full]
    rw [hn, hrun]
    rfl
  · rw [hH]
    simp only [List.length_nil]
    omega

theorem fit_history_length_witness :
    ∃ h, fit absDist
        { n_clusters := 1, linkage_func := single_linkage absDist }
        [(0 : ℤ), 7] = some h ∧
      h.length = [(0 : ℤ), 7].length - 1 :=
  fit_history_length absDist
    { n_clusters := 1, linkage_func := single_linkage absDist }
    [(0 : ℤ), 7] (Or.inl rfl) (by decide) (by decide) (by decide)

/-- C6 (counterexample to the claim as stated): the target count `3` is
outside `[1, N] = [1, 2]` for the two-point input, yet `fit` signals no
configuration error at construction or entry: it silently returns an
empty history. -/
theorem invalid_target_no_error :
    fit absDist { n_clusters := 3, linkage_func := single_linkage absDist }
      [(0 : ℤ), 7] = some [] := by decide

/-- C6 (amended): no validation of the target cluster count is performed
anywhere: for every target count larger than the input size, `fit`
silently returns an empty history with no error, and for the out-of-range
target `0` the failure happens mid-algorithm (the nearest-pair search of
the final iteration finds no eligible entry and raises), not eagerly. -/
theorem no_target_validation :
    (∀ (α β : Type) [Inhabited α] [LinearOrder β] [Zero β]
        (dist : α → α → β) (e : MyAgglomerativeClustering α β) (X : List α),
      X.length < e.n_clusters → fit dist e X = some []) ∧
    fit absDist { n_clusters := 0, linkage_func := single_linkage absDist }
      [(0 : ℤ), 7] = none := by
  constructor
  · intro α β _ _ _ dist e X hk
    have hlen₀ := initState_clusters_length dist X
    have hn : (initState dist X : EngState α β).n_items = X.length := rfl
    simp only [fit, fit_full]
    rw [hn, fitLoop, if_neg (by rw [hlen₀]; omega)]
    rfl
  · decide

theorem no_target_validation_witness :
    fit absDist { n_clusters := 2, linkage_func := single_linkage absDist }
      [(5 : ℤ)] = some [] :=
  no_target_validation.1 ℤ ℤ absDist
    { n_clusters := 2, linkage_func := single_linkage absDist } [(5 : ℤ)]
    (by decide)

/-- C7: whenever `fit` completes on a valid target count, the member sets
of the active clusters of the final state are pairwise disjoint, their
union is exactly the input index set `{0, …, N-1}`, and exactly the target
number of clusters is active. -/
theorem fit_partition {α β : Type} [Inhabited α] [LinearOrder β] [Zero β]
    (dist : α → α → β) (e : MyAgglomerativeClustering α β) (X : List α)
    (hist : List (ℕ × ℕ)) (cs : List MyCluster)
    (hk1 : 1 ≤ e.n_clusters) (hkN : e.n_clusters ≤ X.length)
    (hrun : (fit_full dist e X).map (fun r => (r.1, r.2.clusters)) =
      some (hist, cs)) :
    (∀ i ∈ remaining_clusters cs, ∀ j ∈ remaining_clusters cs, i ≠ j →
      ∀ x ∈ (cs.getD i default).items, x ∉ (cs.getD j default).items) ∧
    (∀ x, x < X.length ↔
      ∃ i ∈ remaining_clusters cs, x ∈ (cs.getD i default).items) ∧
    (remaining_clusters cs).length = e.n_clusters := by
  cases hfull : fit_full dist e X with
  | none => rw [hfull] at hrun; exact Option.noConfusion hrun
  | some r =>
      rw [hfull] at hrun
      simp only [Option.map_some', Option.some.injEq, Prod.mk.injEq] at hrun
      obtain ⟨hh, hcs⟩ := hrun
      have hn : (initState dist X : EngState α β).n_items = X.length := rfl
      simp only [fit_full] at hfull
      rw [hn] at hfull
      have hloop : fitLoop e.linkage_func (2 * X.length - e.n_clusters)
          (2 * X.length - e.n_clusters + 1) (initState dist X) [] =
          some (r.1, r.2) := by
        rw [hfull]
      obtain ⟨hInv', hlen', _⟩ :=
        fitLoop_sound _ _ _ _ _ (initState_inv dist X) hloop
      rw [initState_clusters_length dist X] at hlen'
      subst hcs
      refine ⟨hInv'.hdisj, ?_, ?_⟩
      · intro x
        constructor
        · exact hInv'.hcover x
        · rintro ⟨i, hi, hx⟩
          exact hInv'.hsub i hi x hx
      · have hcnt := hInv'.hcount
        rw [hlen'] at hcnt
        omega

theorem fit_partition_witness :
    (remaining_clusters [⟨[], false⟩, ⟨[], false⟩, ⟨[], false⟩, ⟨[], false⟩,
      (⟨[2, 0, 1], true⟩ : MyCluster)]).length = 1 :=
  (fit_partition absDist
    { n_clusters := 1, linkage_func := single_linkage absDist }
    [(0 : ℤ), 2, 10] [(0, 1), (2, 3)]
    [⟨[], false⟩, ⟨[], false⟩, ⟨[], false⟩, ⟨[], false⟩, ⟨[2, 0, 1], true⟩]
    (by decide) (by decide) (by decide)).2.2

theorem fitLoop_released {α β : Type} [LinearOrder β] [Zero β]
    {lf : LinkFun α β} {bound : ℕ} :
    ∀ (fuel : ℕ) (s : EngState α β) (hist hist' : List (ℕ × ℕ))
      (s' : EngState α β) (i : ℕ),
      fitLoop lf bound fuel s hist = some (hist', s') →
      (s.clusters.getD i default).used = false →
      (s.clusters.getD i default).items = [] →
      (s'.clusters.getD i default).used = false ∧
        (s'.clusters.getD i default).items = [] := by
  intro fuel
  induction fuel with
  | zero =>
      intro s hist hist' s' i h hu hitems
      rw [fitLoop] at h
      by_cases hc : s.clusters.length < bound
      · rw [if_pos hc] at h
        exact Option.noConfusion h
      · rw [if_neg hc] at h
        simp only [Option.some.injEq, Prod.mk.injEq] at h
        obtain ⟨rfl, rfl⟩ := h
        exact ⟨hu, hitems⟩
  | succ fuel ih =>
      intro s hist hist' s' i h hu hitems
      rw [fitLoop] at h
      by_cases hc : s.clusters.length < bound
      · rw [if_pos hc] at h
        have hsplit : find_clusters_to_merge s =
            ((find_clusters_to_merge s).1, s) :=
          Prod.ext rfl (find_state_eq s)
        rw [hsplit] at h
        cases hr : (find_clusters_to_merge s).1 with
        | none => rw [hr] at h; exact Option.noConfusion h
        | some pq =>
            obtain ⟨p, q⟩ := pq
            rw [hr] at h
            replace h : fitLoop lf bound fuel
                (update_proximity lf (merge_cluster s p q).2
                  (merge_cluster s p q).1) (hist ++ [(p, q)]) =
                some (hist', s') := h
            obtain ⟨hp, hq, -, -⟩ := find_some_spec hr
            have hpmem := mem_remaining_clusters.mp hp
            have hqmem := mem_remaining_clusters.mp hq
            have hilen : i < s.clusters.length := by
              by_contra hge
              have hdef : s.clusters.getD i default = default :=
                List.getD_eq_default _ _ (le_of_not_lt hge)
              rw [hdef] at hu
              have htrue : (default : MyCluster).used = true := rfl
              rw [htrue] at hu
              exact Bool.noConfusion hu
            have hip : i ≠ p := by
              intro hh
              subst hh
              rw [hpmem.2] at hu
              exact Bool.noConfusion hu
            have hiq : i ≠ q := by
              intro hh
              subst hh
              rw [hqmem.2] at hu
              exact Bool.noConfusion hu
            have hgetD₂ : (update_proximity lf (merge_cluster s p q).2
                (merge_cluster s p q).1).clusters.getD i default =
                s.clusters.getD i default := by
              rw [update_clusters]
              exact merge_getD_other s p q i hip hiq (Nat.ne_of_lt hilen)
            exact ih _ (hist ++ [(p, q)]) hist' s' i h
              (by rw [hgetD₂]; exact hu) (by rw [hgetD₂]; exact hitems)
      · rw [if_neg hc] at h
        simp only [Option.some.injEq, Prod.mk.injEq] at h
        obtain ⟨rfl, rfl⟩ := h
        exact ⟨hu, hitems⟩

/-- C8: a cluster released during a fit run stays released: its used flag
is false and its member list empty in the state left by any number of
further loop iterations, it is never reactivated, and the nearest-pair
selection only ever returns clusters whose used flag is true (so a
released cluster is never again a merge input). -/
theorem released_clusters_stay_released {α β : Type} [LinearOrder β] [Zero β] :
    (∀ (lf : LinkFun α β) (bound fuel : ℕ) (s : EngState α β)
        (hist hist' : List (ℕ × ℕ)) (cs : List MyCluster) (i : ℕ),
      (fitLoop lf bound fuel s hist).map (fun r => (r.1, r.2.clusters)) =
        some (hist', cs) →
      (s.clusters.getD i default).used = false →
      (s.clusters.getD i default).items = [] →
      (cs.getD i default).used = false ∧ (cs.getD i default).items = []) ∧
    (∀ (s : EngState α β) (p q : ℕ),
      (find_clusters_to_merge s).1 = some (p, q) →
      (s.clusters.getD p default).used = true ∧
      (s.clusters.getD q default).used = true) := by
  constructor
  · intro lf bound fuel s hist hist' cs i h hu hitems
    cases hrun : fitLoop lf bound fuel s hist with
    | none => rw [hrun] at h; exact Option.noConfusion h
    | some r =>
        rw [hrun] at h
        simp only [Option.map_some', Option.some.injEq, Prod.mk.injEq] at h
        obtain ⟨-, hcs⟩ := h
        subst hcs
        exact fitLoop_released fuel s hist r.1 r.2 i hrun hu hitems
  · intro s p q h
    obtain ⟨hp, hq, -, -⟩ := find_some_spec h
    exact ⟨(mem_remaining_clusters.mp hp).2, (mem_remaining_clusters.mp hq).2⟩

theorem released_clusters_stay_released_witness :
    (([⟨[], false⟩, ⟨[], false⟩, ⟨[], false⟩,
        (⟨[0, 1], true⟩ : MyCluster)].getD 2 default).used = false) ∧
    (([⟨[], false⟩, ⟨[], false⟩, ⟨[], false⟩,
        (⟨[0, 1], true⟩ : MyCluster)].getD 2 default).items = []) :=
  released_clusters_stay_released.1 (single_linkage absDist) 4 5
    ⟨2, [(0 : ℤ), 7], [⟨[0], true⟩, ⟨[1], true⟩, ⟨[], false⟩],
      fun a b => if a = 0 ∧ b = 1 then (5 : ℤ) else 0⟩
    [] [(0, 1)]
    [⟨[], false⟩, ⟨[], false⟩, ⟨[], false⟩, ⟨[0, 1], true⟩] 2
    (by decide) (by decide) (by decide)
